import Mathlib

/-!
Verification of the long-short equity factor-ranking strategy
(`Trading_Algo.py`) against its specification.

The repository configures a factor pipeline (seven winsorized factors,
z-scored and summed; top/bottom selection) and a weekly rebalance that
forwards an objective and four constraints to a portfolio optimizer.
The pipeline primitives (`winsorize`, `zscore`, `top`, `bottom`) and the
optimizer live in the external platform; they are modelled here from the
specification's descriptions, while all constants and the way the source
composes the primitives are embedded directly from the source.
-/

namespace TradingAlgo

/-- `MAX_GROSS_LEVERAGE = 1.0` (source line 29). -/
def MAX_GROSS_LEVERAGE : ℚ := 1

/-- `TOTAL_POSITIONS = 3` (source line 30). -/
def TOTAL_POSITIONS : ℕ := 3

/-- The per-position bound `2.0 / tp` as a function of the total number of
position slots, mirroring how the source computes its two bounds. -/
def positionBound (tp : ℕ) : ℚ := 2 / tp

/-- `MAX_SHORT_POSITION_SIZE = 2.0 / TOTAL_POSITIONS` (source line 32). -/
def MAX_SHORT_POSITION_SIZE : ℚ := positionBound TOTAL_POSITIONS

/-- `MAX_LONG_POSITION_SIZE = 2.0 / TOTAL_POSITIONS` (source line 33). -/
def MAX_LONG_POSITION_SIZE : ℚ := positionBound TOTAL_POSITIONS

/-- Clamp a value into the interval `[lo, hi]`. -/
def clip (lo hi x : ℚ) : ℚ := max lo (min hi x)

/-- Modelled from the spec: the (nearest-rank) index of the
`num/den`-percentile in a sorted series of length `n`, i.e. the rank
`⌈(num/den)·n⌉` converted to a 0-based index and clamped into range. -/
def percentileIdx (num den n : ℕ) : ℕ :=
  min (n - 1) ((num * n + den - 1) / den - 1)

/-- Modelled from the spec: the `num/den`-percentile cutoff of a series,
computed across the current universe by sorting and taking the
nearest-rank order statistic. -/
def percentile (num den : ℕ) (xs : List ℚ) : ℚ :=
  (xs.insertionSort (fun a b => a ≤ b)).getD (percentileIdx num den xs.length) 0

/-- Modelled from the spec: `Factor.winsorize(min_percentile, max_percentile)`
clips every value of the series to the percentile range's boundaries;
no value is dropped.  Percentiles are given as `num/100`. -/
def winsorize (minNum maxNum : ℕ) (xs : List ℚ) : List ℚ :=
  xs.map (clip (percentile minNum 100 xs) (percentile maxNum 100 xs))

/-- The seven raw factor series of `make_pipeline` (source lines 55-74),
as per-security value series across the current universe. -/
structure RawFactors where
  value : List ℚ
  quality : List ℚ
  sentiment_score : List ℚ
  sustainable_growth_rate : List ℚ
  working_capital_per_share : List ℚ
  growth_score : List ℚ
  total_revenue : List ℚ

/-- The winsorization step of `make_pipeline` (source lines 64-74):
each of the seven raw factor series is winsorized with
`min_percentile=0.05, max_percentile=0.95`. -/
def winsorizeAll (r : RawFactors) : RawFactors where
  value := winsorize 5 95 r.value
  quality := winsorize 5 95 r.quality
  sentiment_score := winsorize 5 95 r.sentiment_score
  sustainable_growth_rate := winsorize 5 95 r.sustainable_growth_rate
  working_capital_per_share := winsorize 5 95 r.working_capital_per_share
  growth_score := winsorize 5 95 r.growth_score
  total_revenue := winsorize 5 95 r.total_revenue

/-- The specification's description of a winsorized series (stated from the
spec's words, to be compared with `winsorize` from the pipeline): the series
keeps its length, a value below the 5th-percentile cutoff is replaced by
that cutoff, a value above the 95th-percentile cutoff by that cutoff, and
every other value is unchanged; no value is dropped. -/
def winsorizedSpec (inp out : List ℚ) : Prop :=
  out.length = inp.length ∧
  ∀ i, i < inp.length →
    out.getD i 0 =
      if inp.getD i 0 < percentile 5 100 inp then percentile 5 100 inp
      else if percentile 95 100 inp < inp.getD i 0 then percentile 95 100 inp
      else inp.getD i 0

/-- A small concrete set of raw factor series, used to instantiate
universally quantified theorems. -/
def rawExample : RawFactors where
  value := [3, 1]
  quality := [3, 1]
  sentiment_score := [3, 1]
  sustainable_growth_rate := [3, 1]
  working_capital_per_share := [3, 1]
  growth_score := [3, 1]
  total_revenue := [3, 1]

/-- Modelled from the spec: the mean of a factor series across the
current universe. -/
noncomputable def mean (xs : List ℝ) : ℝ := xs.sum / xs.length

/-- Modelled from the spec: the (population) variance of a factor series
across the current universe. -/
noncomputable def variance (xs : List ℝ) : ℝ :=
  ((xs.map fun x => (x - mean xs) ^ 2).sum) / xs.length

/-- Modelled from the spec: `Factor.zscore()` standardizes a series,
replacing each value by `(value − mean) / standard deviation` computed
across the current universe. -/
noncomputable def zscore (xs : List ℝ) : List ℝ :=
  xs.map fun x => (x - mean xs) / Real.sqrt (variance xs)

/-- The seven winsorized factor series entering the combined factor
(source lines 77-85), as real-valued per-security series. -/
structure WinsorizedFactors where
  value : List ℝ
  quality : List ℝ
  sentiment_score : List ℝ
  sustainable_growth_rate : List ℝ
  working_capital_per_share : List ℝ
  growth_score : List ℝ
  total_revenue : List ℝ

/-- All seven series cover the same universe (same length). -/
def sameLength (w : WinsorizedFactors) : Prop :=
  w.quality.length = w.value.length ∧
  w.sentiment_score.length = w.value.length ∧
  w.sustainable_growth_rate.length = w.value.length ∧
  w.working_capital_per_share.length = w.value.length ∧
  w.growth_score.length = w.value.length ∧
  w.total_revenue.length = w.value.length

/-- `combined_factor` (source lines 77-85): the entrywise sum, in the
source's association order, of the z-scores of the seven winsorized
factor series. -/
noncomputable def combined_factor (w : WinsorizedFactors) : List ℝ :=
  List.zipWith (· + ·)
    (List.zipWith (· + ·)
      (List.zipWith (· + ·)
        (List.zipWith (· + ·)
          (List.zipWith (· + ·)
            (List.zipWith (· + ·) (zscore w.value) (zscore w.quality))
            (zscore w.sentiment_score))
          (zscore w.sustainable_growth_rate))
        (zscore w.working_capital_per_share))
      (zscore w.growth_score))
    (zscore w.total_revenue)

/-- A small concrete set of winsorized factor series, used to instantiate
universally quantified theorems. -/
noncomputable def wExample : WinsorizedFactors where
  value := [0, 2]
  quality := [0, 2]
  sentiment_score := [0, 2]
  sustainable_growth_rate := [0, 2]
  working_capital_per_share := [0, 2]
  growth_score := [0, 2]
  total_revenue := [0, 2]

/-- Descending comparison on (security, combined score) pairs. -/
def rdesc (a b : String × ℚ) : Prop := b.2 ≤ a.2

/-- Ascending comparison on (security, combined score) pairs. -/
def rasc (a b : String × ℚ) : Prop := a.2 ≤ b.2

instance : DecidableRel rdesc := fun a b => inferInstanceAs (Decidable (b.2 ≤ a.2))

instance : DecidableRel rasc := fun a b => inferInstanceAs (Decidable (a.2 ≤ b.2))

instance : IsTotal (String × ℚ) rdesc := ⟨fun a b => le_total b.2 a.2⟩

instance : IsTotal (String × ℚ) rasc := ⟨fun a b => le_total a.2 b.2⟩

instance : IsTrans (String × ℚ) rdesc := ⟨fun _ _ _ h h' => le_trans h' h⟩

instance : IsTrans (String × ℚ) rasc := ⟨fun _ _ _ h h' => le_trans h h'⟩

/-- Modelled from the spec: `Factor.top(k, mask)` returns the `k`
securities with the highest combined score in the masked universe
(fewer when the universe is smaller; no padding). -/
def top (k : ℕ) (l : List (String × ℚ)) : List (String × ℚ) :=
  (l.insertionSort rdesc).take k

/-- Modelled from the spec: `Factor.bottom(k, mask)` returns the `k`
securities with the lowest combined score in the masked universe. -/
def bottom (k : ℕ) (l : List (String × ℚ)) : List (String × ℚ) :=
  (l.insertionSort rasc).take k

/-- `longs = combined_factor.top(TOTAL_POSITIONS//2, mask=universe)`
(source line 87); Python `//` is floor division, matching `Nat` division. -/
def longs (l : List (String × ℚ)) : List (String × ℚ) :=
  top (TOTAL_POSITIONS / 2) l

/-- `shorts = combined_factor.bottom(TOTAL_POSITIONS//2, mask=universe)`
(source line 88). -/
def shorts (l : List (String × ℚ)) : List (String × ℚ) :=
  bottom (TOTAL_POSITIONS / 2) l

/-- `long_short_screen = (longs | shorts)` (source line 90): a security
passes the pipeline screen exactly when it is a long or a short candidate. -/
def long_short_screen (l : List (String × ℚ)) (s : String) : Prop :=
  s ∈ (longs l).map Prod.fst ∨ s ∈ (shorts l).map Prod.fst

/-- The constraint language `rebalance` forwards to the optimizer
(source lines 123-139); the meaning of each constraint is modelled from
the spec's descriptions of the platform's `opt` constraints. -/
inductive Constraint where
  | maxGrossExposure (limit : ℚ)
  | dollarNeutral
  | riskModelExposure (loadings : List (List ℚ))
  | positionConcentration (lo hi : ℚ)

/-- Gross exposure of a weight vector: the sum of absolute weights. -/
def grossExposure (w : List ℚ) : ℚ := (w.map fun x => |x|).sum

/-- Net exposure of a weight vector: the sum of signed weights. -/
def netExposure (w : List ℚ) : ℚ := w.sum

/-- Aggregate exposure of a weight vector to one risk factor, given the
per-security loadings for that factor. -/
def factorExposure (row w : List ℚ) : ℚ := (List.zipWith (· * ·) row w).sum

/-- Modelled from the spec: what it means for a weight vector to satisfy
one optimizer constraint (gross exposure bound, dollar neutrality,
zero aggregate exposure to each risk factor, per-position bounds). -/
def satisfiesConstraint (w : List ℚ) : Constraint → Prop
  | .maxGrossExposure limit => grossExposure w ≤ limit
  | .dollarNeutral => netExposure w = 0
  | .riskModelExposure loadings => ∀ row ∈ loadings, factorExposure row w = 0
  | .positionConcentration lo hi => ∀ x ∈ w, lo ≤ x ∧ x ≤ hi

/-- A weight vector satisfies a whole constraint list. -/
def satisfiesAll (w : List ℚ) (cs : List Constraint) : Prop :=
  ∀ c ∈ cs, satisfiesConstraint w c

/-- The exact constraint list built by `rebalance` (source lines 123-139):
`MaxGrossExposure(MAX_GROSS_LEVERAGE)`, `DollarNeutral()`,
`RiskModelExposure(risk_loadings)`, and
`PositionConcentration.with_equal_bounds(-MAX_SHORT_POSITION_SIZE,
MAX_LONG_POSITION_SIZE)`. -/
def rebalanceConstraints (loadings : List (List ℚ)) : List Constraint :=
  [.maxGrossExposure MAX_GROSS_LEVERAGE,
   .dollarNeutral,
   .riskModelExposure loadings,
   .positionConcentration (-MAX_SHORT_POSITION_SIZE) MAX_LONG_POSITION_SIZE]

/-- Modelled from the spec: the optimizer "returns a feasible weight
vector or an infeasibility signal"; infeasibility is a distinct answer
kind, not a portfolio. -/
inductive SolveResult where
  | ok (w : List ℚ)
  | infeasible

/-- Modelled from the spec: a correct solver answer for `n` candidate
securities under constraint list `cs` is either a feasible weight vector
of length `n`, or the infeasibility signal exactly when no feasible
weight vector exists — never a substitute portfolio. -/
def solverAnswers (n : ℕ) (cs : List Constraint) : SolveResult → Prop
  | .ok w => w.length = n ∧ satisfiesAll w cs
  | .infeasible => ¬ ∃ w : List ℚ, w.length = n ∧ satisfiesAll w cs

/-- The spec's contradictory-bounds scenario: equal per-position bounds
with `min > max`, so no weight can satisfy both. -/
def contradictoryConstraints : List Constraint :=
  [.positionConcentration (1/2) 0]

/-- A concrete weight vector used to instantiate the portfolio
invariant theorems. -/
def wPortfolio : List ℚ := [1/2, -(1/2)]

/-- A concrete one-factor risk-loading matrix used to instantiate the
portfolio invariant theorems. -/
def loadingsExample : List (List ℚ) := [[1, 1]]

/-- The scenario universe of the spec: combined scores
A:2.0, B:1.0, C:-0.5, D:-2.0. -/
def scenarioScores : List (String × ℚ) :=
  [("A", 2), ("B", 1), ("C", -(1/2)), ("D", -2)]

lemma longs_length (l : List (String × ℚ)) :
    (longs l).length = min (TOTAL_POSITIONS / 2) l.length := by
  simp [longs, top]

lemma shorts_length (l : List (String × ℚ)) :
    (shorts l).length = min (TOTAL_POSITIONS / 2) l.length := by
  simp [shorts, bottom]

/-- **C1.** With `TOTAL_POSITIONS = 3` (so `K = 3//2 = 1`), on the spec's
scenario universe `{A,B,C,D}` with combined scores A:2.0, B:1.0, C:-0.5,
D:-2.0, the long candidates are exactly `{A}` (the top `K` by combined
score), the shorts exactly `{D}` (the bottom `K`), and every other
security (B and C) fails the pipeline screen. -/
theorem C1_top_bottom_selection :
    TOTAL_POSITIONS / 2 = 1 ∧
    longs scenarioScores = [("A", 2)] ∧
    shorts scenarioScores = [("D", -2)] ∧
    long_short_screen scenarioScores "A" ∧
    long_short_screen scenarioScores "D" ∧
    ¬ long_short_screen scenarioScores "B" ∧
    ¬ long_short_screen scenarioScores "C" := by
  refine ⟨rfl, ?_, ?_, ?_, ?_, ?_, ?_⟩ <;>
    norm_num [scenarioScores, longs, shorts, top, bottom, long_short_screen,
      TOTAL_POSITIONS, List.insertionSort, List.orderedInsert, rdesc, rasc] <;>
    decide

/-- **C2.** For every universe with combined scores, the number of long
candidates is exactly `min K |universe|` and likewise for shorts, with
`K = TOTAL_POSITIONS / 2`; hence longs are at most `⌈TOTAL_POSITIONS/2⌉`,
shorts at most `⌊TOTAL_POSITIONS/2⌋`, and when fewer securities are
available, fewer candidates are produced with no padding. -/
theorem C2_candidate_counts (l : List (String × ℚ)) :
    (longs l).length = min (TOTAL_POSITIONS / 2) l.length ∧
    (shorts l).length = min (TOTAL_POSITIONS / 2) l.length ∧
    (longs l).length ≤ (TOTAL_POSITIONS + 1) / 2 ∧
    (shorts l).length ≤ TOTAL_POSITIONS / 2 ∧
    (longs l).length ≤ l.length ∧
    (shorts l).length ≤ l.length := by
  have hl := longs_length l
  have hs := shorts_length l
  refine ⟨hl, hs, ?_, ?_, ?_, ?_⟩ <;> omega

lemma clip_idem (lo hi x : ℚ) : clip lo hi (clip lo hi x) = clip lo hi x := by
  unfold clip
  rcases le_total lo hi with h | h <;>
    rcases le_total x lo with h1 | h1 <;>
    rcases le_total x hi with h2 | h2 <;>
    simp [max_def, min_def] <;> split_ifs <;> linarith

lemma monotone_clip (lo hi : ℚ) : Monotone (clip lo hi) :=
  monotone_const.max (monotone_const.min monotone_id)

lemma insertionSort_map_monotone (f : ℚ → ℚ) (hf : Monotone f) (xs : List ℚ) :
    (xs.map f).insertionSort (fun a b => a ≤ b) =
      (xs.insertionSort (fun a b => a ≤ b)).map f := by
  have hperm : List.Perm ((xs.map f).insertionSort (fun a b => a ≤ b))
      ((xs.insertionSort (fun a b => a ≤ b)).map f) :=
    (List.perm_insertionSort _ _).trans ((List.perm_insertionSort _ xs).symm.map f)
  have hs1 := List.sorted_insertionSort (fun a b : ℚ => a ≤ b) (xs.map f)
  have hs2 : ((xs.insertionSort (fun a b => a ≤ b)).map f).Sorted (fun a b => a ≤ b) :=
    List.Pairwise.map f (fun a b h => hf h) (List.sorted_insertionSort _ xs)
  exact List.eq_of_perm_of_sorted hperm hs1 hs2

lemma percentileIdx_lt (num den n : ℕ) (h : n ≠ 0) : percentileIdx num den n < n := by
  unfold percentileIdx
  omega

lemma percentileIdx_mono {num num' : ℕ} (den n : ℕ) (h : num ≤ num') :
    percentileIdx num den n ≤ percentileIdx num' den n := by
  unfold percentileIdx
  have hdiv : (num * n + den - 1) / den ≤ (num' * n + den - 1) / den :=
    Nat.div_le_div_right (Nat.sub_le_sub_right
      (Nat.add_le_add_right (Nat.mul_le_mul_right n h) den) 1)
  omega

lemma sorted_getD_mono {l : List ℚ} (h : l.Sorted (fun a b => a ≤ b)) {i j : ℕ}
    (hij : i ≤ j) (hj : j < l.length) : l.getD i 0 ≤ l.getD j 0 := by
  have hi : i < l.length := lt_of_le_of_lt hij hj |>.trans_le (le_refl _) |>.trans_le (le_refl _)
  rw [List.getD_eq_getElem _ _ hi, List.getD_eq_getElem _ _ hj]
  have := h.rel_get_of_le (a := ⟨i, hi⟩) (b := ⟨j, hj⟩) hij
  simpa using this

lemma percentile_le_percentile {num num' : ℕ} (den : ℕ) (xs : List ℚ)
    (h : num ≤ num') : percentile num den xs ≤ percentile num' den xs := by
  rcases eq_or_ne xs [] with rfl | hne
  · simp [percentile]
  · have hn : xs.length ≠ 0 := by simpa using hne
    unfold percentile
    exact sorted_getD_mono (List.sorted_insertionSort _ xs)
      (percentileIdx_mono den xs.length h)
      (by rw [List.length_insertionSort]; exact percentileIdx_lt _ _ _ hn)

lemma percentile_map_monotone (f : ℚ → ℚ) (hf : Monotone f) (num den : ℕ)
    (xs : List ℚ) (hne : xs ≠ []) :
    percentile num den (xs.map f) = f (percentile num den xs) := by
  have hn : xs.length ≠ 0 := by simpa using hne
  have hidx : percentileIdx num den xs.length <
      (xs.insertionSort (fun a b => a ≤ b)).length := by
    rw [List.length_insertionSort]
    exact percentileIdx_lt _ _ _ hn
  unfold percentile
  rw [List.length_map, insertionSort_map_monotone f hf,
    List.getD_eq_getElem _ _ (by simpa using hidx), List.getD_eq_getElem _ _ hidx]
  simp

lemma clip_eq_ite (lo hi x : ℚ) (h : lo ≤ hi) :
    clip lo hi x = if x < lo then lo else if hi < x then hi else x := by
  unfold clip
  split_ifs with h1 h2
  · rw [min_eq_right (le_of_lt (lt_of_lt_of_le h1 h)), max_eq_left (le_of_lt h1)]
  · rw [min_eq_left (le_of_lt h2), max_eq_right h]
  · rw [min_eq_right (le_of_not_lt h2), max_eq_right (le_of_not_lt h1)]

lemma winsorize_meets_spec (xs : List ℚ) : winsorizedSpec xs (winsorize 5 95 xs) := by
  constructor
  · simp [winsorize]
  · intro i hi
    have hlohi : percentile 5 100 xs ≤ percentile 95 100 xs :=
      percentile_le_percentile 100 xs (by norm_num)
    have : (winsorize 5 95 xs).getD i 0 =
        clip (percentile 5 100 xs) (percentile 95 100 xs) (xs.getD i 0) := by
      unfold winsorize
      rw [List.getD_eq_getElem _ _ (by simpa using hi), List.getD_eq_getElem _ _ hi]
      simp
    rw [this, clip_eq_ite _ _ _ hlohi]

/-- **C3.** Each of the seven raw factor series (value, quality, sentiment,
sustainable growth rate, working capital per share, growth score, total
revenue) is winsorized by clipping to the [5th, 95th]-percentile range
across the current universe: a value below the lower cutoff is replaced by
the cutoff, a value above the upper cutoff by that cutoff, all other values
are unchanged, and no value is dropped (the series keeps its length). -/
theorem C3_seven_factors_winsorized (r : RawFactors) :
    winsorizedSpec r.value (winsorizeAll r).value ∧
    winsorizedSpec r.quality (winsorizeAll r).quality ∧
    winsorizedSpec r.sentiment_score (winsorizeAll r).sentiment_score ∧
    winsorizedSpec r.sustainable_growth_rate (winsorizeAll r).sustainable_growth_rate ∧
    winsorizedSpec r.working_capital_per_share (winsorizeAll r).working_capital_per_share ∧
    winsorizedSpec r.growth_score (winsorizeAll r).growth_score ∧
    winsorizedSpec r.total_revenue (winsorizeAll r).total_revenue :=
  ⟨winsorize_meets_spec _, winsorize_meets_spec _, winsorize_meets_spec _,
    winsorize_meets_spec _, winsorize_meets_spec _, winsorize_meets_spec _,
    winsorize_meets_spec _⟩

/-- Witness for C3: on the concrete series `[3, 1]` the winsorized value
series has the same length and its first entry satisfies the clipping
equation of the specification. -/
theorem C3_seven_factors_winsorized_witness :
    (winsorizeAll rawExample).value.length = rawExample.value.length ∧
    (winsorizeAll rawExample).value.getD 0 0 = 3 := by
  have h := (C3_seven_factors_winsorized rawExample).1
  refine ⟨h.1, ?_⟩
  have h0 := h.2 0 (by norm_num [rawExample])
  rw [h0]
  norm_num [rawExample, percentile, percentileIdx, List.insertionSort,
    List.orderedInsert]

/-- **C5.** Winsorization is idempotent: applying the 5/95-percentile
winsorization to an already winsorized series returns it unchanged. -/
theorem C5_winsorize_idempotent (xs : List ℚ) :
    winsorize 5 95 (winsorize 5 95 xs) = winsorize 5 95 xs := by
  rcases eq_or_ne xs [] with rfl | hne
  · simp [winsorize]
  · have hlohi : percentile 5 100 xs ≤ percentile 95 100 xs :=
      percentile_le_percentile 100 xs (by norm_num)
    have hlo : percentile 5 100 (winsorize 5 95 xs) = percentile 5 100 xs := by
      unfold winsorize
      rw [percentile_map_monotone _ (monotone_clip _ _) _ _ xs hne]
      unfold clip
      rw [min_eq_right hlohi, max_self]
    have hhi : percentile 95 100 (winsorize 5 95 xs) = percentile 95 100 xs := by
      unfold winsorize
      rw [percentile_map_monotone _ (monotone_clip _ _) _ _ xs hne]
      unfold clip
      rw [min_self, max_eq_right hlohi]
    show (winsorize 5 95 xs).map
        (clip (percentile 5 100 (winsorize 5 95 xs))
          (percentile 95 100 (winsorize 5 95 xs))) = winsorize 5 95 xs
    rw [hlo, hhi]
    show (xs.map (clip (percentile 5 100 xs) (percentile 95 100 xs))).map
        (clip (percentile 5 100 xs) (percentile 95 100 xs)) = _
    rw [List.map_map]
    congr 1
    funext x
    exact clip_idem _ _ x

lemma variance_eq_def (l : List ℝ) :
    variance l = ((l.map fun x => (x - mean l) ^ 2).sum) / l.length := rfl

lemma sum_map_sub_const (l : List ℝ) (c : ℝ) :
    (l.map fun x => x - c).sum = l.sum - l.length * c := by
  induction l with
  | nil => simp
  | cons a l ih =>
    simp only [List.map_cons, List.sum_cons, ih, List.length_cons]
    push_cast
    ring

lemma length_ne_zero_of_variance_pos {xs : List ℝ} (h : 0 < variance xs) :
    (xs.length : ℝ) ≠ 0 := by
  intro hx
  have hlen : xs.length = 0 := Nat.cast_eq_zero.mp hx
  rw [List.length_eq_zero.mp hlen] at h
  simp [variance, mean] at h

lemma sum_sub_mean (xs : List ℝ) (hn : (xs.length : ℝ) ≠ 0) :
    (xs.map fun x => x - mean xs).sum = 0 := by
  rw [sum_map_sub_const]
  unfold mean
  field_simp

lemma zscore_sum_zero {xs : List ℝ} (h : 0 < variance xs) : (zscore xs).sum = 0 := by
  have hn := length_ne_zero_of_variance_pos h
  unfold zscore
  simp only [div_eq_mul_inv]
  rw [List.sum_map_mul_right, sum_sub_mean xs hn, zero_mul]

lemma zscore_mean_zero {xs : List ℝ} (h : 0 < variance xs) : mean (zscore xs) = 0 := by
  unfold mean
  rw [zscore_sum_zero h, zero_div]

lemma zscore_variance_one {xs : List ℝ} (h : 0 < variance xs) :
    variance (zscore xs) = 1 := by
  have hn := length_ne_zero_of_variance_pos h
  have hv : variance xs ≠ 0 := ne_of_gt h
  have hsum : (xs.map fun x => (x - mean xs) ^ 2).sum = variance xs * xs.length := by
    rw [variance_eq_def]
    field_simp
  rw [variance_eq_def (zscore xs), zscore_mean_zero h]
  simp only [sub_zero]
  unfold zscore
  rw [List.map_map, List.length_map]
  have hmap : ((fun y => y ^ 2) ∘ fun x => (x - mean xs) / Real.sqrt (variance xs)) =
      fun x => (x - mean xs) ^ 2 * (variance xs)⁻¹ := by
    funext x
    simp only [Function.comp, div_eq_mul_inv, mul_pow, inv_pow, Real.sq_sqrt h.le]
  rw [hmap, List.sum_map_mul_right, hsum]
  field_simp

lemma zscore_length (l : List ℝ) : (zscore l).length = l.length := by
  simp [zscore]

/-- **C4.** The combined score is the entrywise sum of the z-scores of the
seven winsorized factor series (value, quality, sentiment, sustainable
growth rate, working capital per share, growth score, total revenue),
where each z-score is `(value − mean) / standard deviation` across the
current universe; and each standardized series indeed has zero mean and
unit variance (whenever its variance is positive, so that the standard
deviation is nonzero). -/
theorem C4_combined_score_sum_of_zscores (w : WinsorizedFactors) (i : ℕ)
    (hlen : sameLength w) (hi : i < w.value.length)
    (xs : List ℝ) (hvar : 0 < variance xs) :
    (combined_factor w).getD i 0 =
      (zscore w.value).getD i 0 + (zscore w.quality).getD i 0 +
      (zscore w.sentiment_score).getD i 0 +
      (zscore w.sustainable_growth_rate).getD i 0 +
      (zscore w.working_capital_per_share).getD i 0 +
      (zscore w.growth_score).getD i 0 +
      (zscore w.total_revenue).getD i 0 ∧
    mean (zscore xs) = 0 ∧ variance (zscore xs) = 1 := by
  obtain ⟨h1, h2, h3, h4, h5, h6⟩ := hlen
  refine ⟨?_, zscore_mean_zero hvar, zscore_variance_one hvar⟩
  have hc : i < (combined_factor w).length := by
    simp [combined_factor, List.length_zipWith, zscore_length, h1, h2, h3, h4, h5, h6]
    exact hi
  rw [List.getD_eq_getElem _ _ hc,
    List.getD_eq_getElem _ _ (by rw [zscore_length]; exact hi),
    List.getD_eq_getElem _ _ (by rw [zscore_length, h1]; exact hi),
    List.getD_eq_getElem _ _ (by rw [zscore_length, h2]; exact hi),
    List.getD_eq_getElem _ _ (by rw [zscore_length, h3]; exact hi),
    List.getD_eq_getElem _ _ (by rw [zscore_length, h4]; exact hi),
    List.getD_eq_getElem _ _ (by rw [zscore_length, h5]; exact hi),
    List.getD_eq_getElem _ _ (by rw [zscore_length, h6]; exact hi)]
  simp [combined_factor, List.getElem_zipWith]

/-- Witness for C4: at the concrete series `[0, 2]` (variance 1) and the
concrete factor set with every series `[0, 2]`, entry 0 of the combined
factor is the sum of the seven z-score entries, and the standardized
series has mean 0 and variance 1. -/
theorem C4_combined_score_sum_of_zscores_witness :
    0 < variance [0, 2] ∧
    (combined_factor wExample).getD 0 0 =
      (zscore wExample.value).getD 0 0 + (zscore wExample.quality).getD 0 0 +
      (zscore wExample.sentiment_score).getD 0 0 +
      (zscore wExample.sustainable_growth_rate).getD 0 0 +
      (zscore wExample.working_capital_per_share).getD 0 0 +
      (zscore wExample.growth_score).getD 0 0 +
      (zscore wExample.total_revenue).getD 0 0 ∧
    mean (zscore [0, 2]) = 0 ∧ variance (zscore [0, 2]) = 1 := by
  have hvar : 0 < variance ([0, 2] : List ℝ) := by
    norm_num [variance, mean]
  have h := C4_combined_score_sum_of_zscores wExample 0
    (by norm_num [sameLength, wExample]) (by norm_num [wExample]) [0, 2] hvar
  exact ⟨hvar, h.1, h.2.1, h.2.2⟩

/-- **C6.** Every weight vector satisfying the constraint list built by
`rebalance` is dollar-neutral and leverage-bounded: the absolute net
exposure is below any positive epsilon (it is exactly zero), and the
gross exposure is at most `MAX_GROSS_LEVERAGE + epsilon` (in fact at most
`MAX_GROSS_LEVERAGE = 1`). -/
theorem C6_dollar_neutral_and_leverage (w : List ℚ) (loadings : List (List ℚ))
    (eps : ℚ) (heps : 0 < eps)
    (h : satisfiesAll w (rebalanceConstraints loadings)) :
    |netExposure w| < eps ∧ grossExposure w ≤ MAX_GROSS_LEVERAGE + eps := by
  have hd : netExposure w = 0 :=
    h Constraint.dollarNeutral (by simp [rebalanceConstraints])
  have hg : grossExposure w ≤ MAX_GROSS_LEVERAGE :=
    h (Constraint.maxGrossExposure MAX_GROSS_LEVERAGE) (by simp [rebalanceConstraints])
  constructor
  · rw [hd]
    simpa using heps
  · linarith

/-- Witness for C6: the weight vector `[1/2, -1/2]` satisfies all four
rebalance constraints for the one-factor loading matrix `[[1, 1]]`, and is
dollar-neutral and leverage-bounded with epsilon `1/100`. -/
theorem C6_dollar_neutral_and_leverage_witness :
    (0 : ℚ) < 1/100 ∧
    satisfiesAll wPortfolio (rebalanceConstraints loadingsExample) ∧
    |netExposure wPortfolio| < 1/100 ∧
    grossExposure wPortfolio ≤ MAX_GROSS_LEVERAGE + 1/100 := by
  have hsat : satisfiesAll wPortfolio (rebalanceConstraints loadingsExample) := by
    intro c hc
    simp only [rebalanceConstraints, List.mem_cons, List.not_mem_nil, or_false] at hc
    rcases hc with rfl | rfl | rfl | rfl <;>
      norm_num [satisfiesConstraint, grossExposure, netExposure, factorExposure,
        wPortfolio, loadingsExample, MAX_GROSS_LEVERAGE, MAX_SHORT_POSITION_SIZE,
        MAX_LONG_POSITION_SIZE, positionBound, TOTAL_POSITIONS, abs_of_nonneg]
  have h := C6_dollar_neutral_and_leverage wPortfolio loadingsExample (1/100)
    (by norm_num) hsat
  exact ⟨by norm_num, hsat, h.1, h.2⟩

/-- **C7.** Under the `rebalance` constraint list, every position weight is
at least `-MAX_SHORT_POSITION_SIZE` and at most `MAX_LONG_POSITION_SIZE`;
both bounds equal `2 / TOTAL_POSITIONS`, and the bound `2 / tp` decreases
as the total number of positions grows. -/
theorem C7_position_bounds (w : List ℚ) (loadings : List (List ℚ))
    (h : satisfiesAll w (rebalanceConstraints loadings)) :
    MAX_SHORT_POSITION_SIZE = 2 / (TOTAL_POSITIONS : ℚ) ∧
    MAX_LONG_POSITION_SIZE = 2 / (TOTAL_POSITIONS : ℚ) ∧
    (∀ x ∈ w, -MAX_SHORT_POSITION_SIZE ≤ x ∧ x ≤ MAX_LONG_POSITION_SIZE) ∧
    (∀ n m : ℕ, 0 < n → n ≤ m → positionBound m ≤ positionBound n) := by
  refine ⟨rfl, rfl, ?_, ?_⟩
  · exact h (Constraint.positionConcentration (-MAX_SHORT_POSITION_SIZE)
      MAX_LONG_POSITION_SIZE) (by simp [rebalanceConstraints])
  · intro n m hn hm
    unfold positionBound
    have hn' : (0 : ℚ) < n := by exact_mod_cast hn
    have hm' : (n : ℚ) ≤ m := by exact_mod_cast hm
    gcongr

/-- Witness for C7: the weight vector `[1/2, -1/2]` satisfies the
rebalance constraints, each of its weights lies within the position
bounds, and both bounds equal `2/3`. -/
theorem C7_position_bounds_witness :
    satisfiesAll wPortfolio (rebalanceConstraints loadingsExample) ∧
    MAX_SHORT_POSITION_SIZE = 2 / (TOTAL_POSITIONS : ℚ) ∧
    (∀ x ∈ wPortfolio, -MAX_SHORT_POSITION_SIZE ≤ x ∧ x ≤ MAX_LONG_POSITION_SIZE) := by
  have hsat : satisfiesAll wPortfolio (rebalanceConstraints loadingsExample) := by
    intro c hc
    simp only [rebalanceConstraints, List.mem_cons, List.not_mem_nil, or_false] at hc
    rcases hc with rfl | rfl | rfl | rfl <;>
      norm_num [satisfiesConstraint, grossExposure, netExposure, factorExposure,
        wPortfolio, loadingsExample, MAX_GROSS_LEVERAGE, MAX_SHORT_POSITION_SIZE,
        MAX_LONG_POSITION_SIZE, positionBound, TOTAL_POSITIONS, abs_of_nonneg]
  have h := C7_position_bounds wPortfolio loadingsExample hsat
  exact ⟨hsat, h.1, h.2.2.1⟩

/-- **C8.** Under the spec's contradictory-bounds scenario (equal
per-position bounds with `min = 1/2 > 0 = max`, one candidate security)
no feasible weight vector exists, and any correct solver answer is the
distinct infeasibility signal — never a degenerate or best-effort
portfolio. -/
theorem C8_infeasibility_reported :
    (¬ ∃ w : List ℚ, w.length = 1 ∧ satisfiesAll w contradictoryConstraints) ∧
    ∀ r : SolveResult, solverAnswers 1 contradictoryConstraints r →
      r = SolveResult.infeasible := by
  have hinf : ¬ ∃ w : List ℚ, w.length = 1 ∧ satisfiesAll w contradictoryConstraints := by
    rintro ⟨w, hw, hsat⟩
    have hpc := hsat (Constraint.positionConcentration (1/2) 0)
      (by simp [contradictoryConstraints])
    cases w with
    | nil => simp at hw
    | cons a t =>
      cases t with
      | nil =>
        have ha := hpc a (by simp)
        have h1 := ha.1
        have h2 := ha.2
        linarith
      | cons b t' => simp at hw
  refine ⟨hinf, ?_⟩
  intro r hr
  cases r with
  | ok w => exact absurd ⟨w, hr.1, hr.2⟩ hinf
  | infeasible => rfl

/-- Witness for C8: the infeasibility signal itself is a correct solver
answer for the contradictory constraint set, and the theorem maps it to
the infeasibility signal. -/
theorem C8_infeasibility_reported_witness :
    solverAnswers 1 contradictoryConstraints SolveResult.infeasible ∧
    SolveResult.infeasible = SolveResult.infeasible := by
  have h := C8_infeasibility_reported
  have hans : solverAnswers 1 contradictoryConstraints SolveResult.infeasible := h.1
  exact ⟨hans, h.2 SolveResult.infeasible hans⟩

/-- **C9.** With the shipped configuration `TOTAL_POSITIONS = 3` (odd),
the pipeline selects at most `2 * (3 // 2) = 3 - 1 = 2` candidate
positions in total — at most one long and one short — so the full three
position slots are never used. -/
theorem C9_odd_total_positions_unused_slot :
    TOTAL_POSITIONS = 3 ∧
    2 * (TOTAL_POSITIONS / 2) = TOTAL_POSITIONS - 1 ∧
    ∀ l : List (String × ℚ), (longs l).length ≤ 1 ∧ (shorts l).length ≤ 1 ∧
      (longs l).length + (shorts l).length < TOTAL_POSITIONS := by
  refine ⟨rfl, rfl, fun l => ?_⟩
  have h1 := longs_length l
  have h2 := shorts_length l
  rw [show TOTAL_POSITIONS = 3 from rfl] at h1 h2 ⊢
  omega

lemma countP_lt_length {α : Type _} (p : α → Bool) {l : List α} {a : α}
    (ha : a ∈ l) (hpa : p a = false) : l.countP p < l.length := by
  induction l with
  | nil => cases ha
  | cons b t ih =>
    rw [List.countP_cons, List.length_cons]
    rcases List.mem_cons.mp ha with rfl | hmem
    · rw [hpa]
      simpa using Nat.lt_succ_of_le (List.countP_le_length p)
    · have := ih hmem
      split_ifs <;> omega

lemma countP_take_sort_le (r : String × ℚ → String × ℚ → Prop) [DecidableRel r]
    [IsTotal (String × ℚ) r] [IsTrans (String × ℚ) r]
    (p : String × ℚ → Bool) {k : ℕ} {l : List (String × ℚ)} {e : String × ℚ}
    (he : e ∈ (l.insertionSort r).take k)
    (hpe : p e = false) (himp : ∀ x, r e x → p x = false) :
    l.countP p ≤ k - 1 := by
  have hperm := List.perm_insertionSort r l
  rw [← hperm.countP_eq p]
  set sd := l.insertionSort r with hsd
  have hsplit : sd = sd.take k ++ sd.drop k := (List.take_append_drop k sd).symm
  have hsorted : sd.Pairwise r := List.sorted_insertionSort r l
  rw [hsplit] at hsorted
  have hrel := (List.pairwise_append.mp hsorted).2.2
  have hdrop : (sd.drop k).countP p = 0 := by
    rw [List.countP_eq_zero]
    intro x hx
    simpa using himp x (hrel e he x hx)
  have htake : (sd.take k).countP p < (sd.take k).length :=
    countP_lt_length p he hpe
  have hlen : (sd.take k).length ≤ k := List.length_take_le k sd
  calc sd.countP p = (sd.take k).countP p + (sd.drop k).countP p := by
        rw [← List.countP_append, ← hsplit]
      _ ≤ k - 1 := by omega

lemma countP_snd_eq_one {l : List (String × ℚ)} {e : String × ℚ}
    (hmem : e ∈ l) (hnd : (l.map Prod.snd).Nodup) :
    l.countP (fun x => x.2 == e.2) = 1 := by
  have h1 : l.countP (fun x => x.2 == e.2) = (l.map Prod.snd).countP (· == e.2) := by
    rw [List.countP_map]
    rfl
  rw [h1, ← List.count]
  exact List.count_eq_one_of_mem hnd (List.mem_map_of_mem Prod.snd hmem)

lemma length_le_three_countP (l : List (String × ℚ)) (e : String × ℚ) :
    l.length ≤ l.countP (fun x => e.2 < x.2) + l.countP (fun x => x.2 < e.2) +
      l.countP (fun x => x.2 == e.2) := by
  induction l with
  | nil => simp
  | cons b t ih =>
    simp only [List.countP_cons, List.length_cons]
    rcases lt_trichotomy e.2 b.2 with h | h | h
    · have c1 : decide (e.2 < b.2) = true := decide_eq_true h
      simp [c1]
      omega
    · have c3 : (b.2 == e.2) = true := beq_iff_eq.mpr h.symm
      simp [c3]
      omega
    · have c2 : decide (b.2 < e.2) = true := decide_eq_true h
      simp [c2]
      omega

lemma disjoint_top_bottom (l : List (String × ℚ)) (k : ℕ)
    (hfst : (l.map Prod.fst).Nodup) (hsnd : (l.map Prod.snd).Nodup)
    (hlen : 2 * k ≤ l.length) (s : String)
    (htop : s ∈ (top k l).map Prod.fst) : s ∉ (bottom k l).map Prod.fst := by
  intro hbot
  obtain ⟨e, he, hes⟩ := List.mem_map.mp htop
  obtain ⟨e', he', hes'⟩ := List.mem_map.mp hbot
  have hel : e ∈ l := by
    have h := List.mem_of_mem_take he
    rwa [List.mem_insertionSort] at h
  have hel' : e' ∈ l := by
    have h := List.mem_of_mem_take he'
    rwa [List.mem_insertionSort] at h
  have hee : e' = e :=
    List.inj_on_of_nodup_map hfst hel' hel (by rw [hes, hes'])
  subst hee
  have hk : k ≠ 0 := by
    rintro rfl
    simp [top] at he
  have hgt : l.countP (fun x => e'.2 < x.2) ≤ k - 1 :=
    countP_take_sort_le rdesc _ he (decide_eq_false (lt_irrefl _))
      (fun x hx => decide_eq_false (not_lt.mpr hx))
  have hlt : l.countP (fun x => x.2 < e'.2) ≤ k - 1 :=
    countP_take_sort_le rasc _ he' (decide_eq_false (lt_irrefl _))
      (fun x hx => decide_eq_false (not_lt.mpr hx))
  have heq : l.countP (fun x => x.2 == e'.2) = 1 := countP_snd_eq_one hel hsnd
  have htotal := length_le_three_countP l e'
  omega

/-- **C10.** For every universe of at least `2K` securities with pairwise
distinct identifiers and pairwise distinct combined scores, the long and
short candidate sets are disjoint; the pipeline's screen is exactly the
union of the two candidate sets; and for a universe smaller than `2K`
disjointness can fail — on the one-security universe `{A}` with `K = 1`,
`A` is both a long and a short candidate. -/
theorem C10_long_short_screen :
    (∀ (l : List (String × ℚ)) (k : ℕ),
      (l.map Prod.fst).Nodup → (l.map Prod.snd).Nodup → 2 * k ≤ l.length →
      ∀ s, s ∈ (top k l).map Prod.fst → s ∉ (bottom k l).map Prod.fst) ∧
    (∀ (l : List (String × ℚ)) (s : String),
      long_short_screen l s ↔
        s ∈ (longs l).map Prod.fst ∨ s ∈ (shorts l).map Prod.fst) ∧
    ("A" ∈ (top 1 [("A", (1 : ℚ))]).map Prod.fst ∧
      "A" ∈ (bottom 1 [("A", (1 : ℚ))]).map Prod.fst) := by
  refine ⟨disjoint_top_bottom, fun l s => Iff.rfl, ?_, ?_⟩ <;>
    norm_num [top, bottom, List.insertionSort, List.orderedInsert]

/-- Witness for C10: on the two-security universe `{A: 2.0, B: 1.0}` with
`K = 1` (distinct names, distinct scores, `2K ≤ 2`), `A` is the long
candidate and is not a short candidate. -/
theorem C10_long_short_screen_witness :
    (([("A", (2 : ℚ)), ("B", 1)].map Prod.fst).Nodup ∧
      ([("A", (2 : ℚ)), ("B", 1)].map Prod.snd).Nodup ∧
      2 * 1 ≤ ([("A", (2 : ℚ)), ("B", 1)] : List (String × ℚ)).length ∧
      "A" ∈ (top 1 [("A", (2 : ℚ)), ("B", 1)]).map Prod.fst) ∧
    "A" ∉ (bottom 1 [("A", (2 : ℚ)), ("B", 1)]).map Prod.fst := by
  have h1 : (([("A", (2 : ℚ)), ("B", 1)]).map Prod.fst).Nodup := by
    norm_num
    decide
  have h2 : (([("A", (2 : ℚ)), ("B", 1)]).map Prod.snd).Nodup := by
    norm_num
  have h3 : 2 * 1 ≤ ([("A", (2 : ℚ)), ("B", 1)] : List (String × ℚ)).length := by
    norm_num
  have h4 : "A" ∈ (top 1 [("A", (2 : ℚ)), ("B", 1)]).map Prod.fst := by
    norm_num [top, List.insertionSort, List.orderedInsert, rdesc]
  exact ⟨⟨h1, h2, h3, h4⟩,
    C10_long_short_screen.1 [("A", 2), ("B", 1)] 1 h1 h2 h3 "A" h4⟩

end TradingAlgo
